import Mathlib

/-!
Verification of the output-buffer and canonicalizer contracts of the
google-url canonicalization library (`src/url_canon.h`).

The growable output buffer `CanonOutputT` is embedded shallowly: the C++
members `buffer_`, `buffer_len_`, `cur_len_` become a Lean structure, the
virtual `Resize` becomes an explicit function parameter constrained by the
contract stated in its source comment, and the `do`-`while` loop inside
`Grow` becomes a fueled recursion (the loop need not terminate when the
capacity is zero, so fuel makes the divergence observable).

The per-component canonicalizers and the relative-URL resolver are only
declared in `url_canon.h`; their behaviour is modelled from the design
specification, as marked in each doc comment.
-/

namespace UrlCanon

/-- Result of the doubling loop inside `CanonOutputT::Grow`: either the
out-of-memory failure (a candidate capacity reached the `2^30` cap before
the request was accommodated) or the final capacity handed to `Resize`. -/
inductive GrowResult where
  | oom : GrowResult
  | ok : Nat → GrowResult
deriving DecidableEq

/-- The doubling loop of `CanonOutputT::Grow` (url_canon.h lines 145-154):
`int new_len = buffer_len_; do { if (new_len >= (1 << 30)) return false;
new_len *= 2; } while (new_len < buffer_len_ + min_additional);`.
`v` is the running `new_len`.  The loop is given explicit fuel because the
C++ loop does not terminate when `buffer_len_` is zero; `none` means the
loop was still running when the fuel ran out. -/
def growLoop (buffer_len min_additional : Nat) : Nat → Nat → Option GrowResult
  | 0, _ => none
  | fuel + 1, v =>
    if 2 ^ 30 ≤ v then some GrowResult.oom
    else if v * 2 < buffer_len + min_additional then
      growLoop buffer_len min_additional fuel (v * 2)
    else some (GrowResult.ok (v * 2))

/-- `Grow` at capacity `cap` for request `minadd` returns (with some fuel). -/
def growTerminates (cap minadd : Nat) : Prop :=
  ∃ fuel r, growLoop cap minadd fuel cap = some r

/-- State of a `CanonOutputT<T>`: the backing store (total, since the C++
buffer cells beyond `cur_len_` merely hold unspecified values), its
capacity `buffer_len_` and the used length `cur_len_`. -/
structure CanonOutputT (T : Type) where
  buffer : Nat → T
  buffer_len : Nat
  cur_len : Nat

/-- Single store `buffer_[i] = ch`. -/
def writeAt {T : Type} (buf : Nat → T) (i : Nat) (ch : T) : Nat → T :=
  fun j => if j = i then ch else buf j

/-- The copy loop of `Append`: `for (int i = 0; i < str_len; i++)
buffer_[cur_len_ + i] = str[i];` as a pointwise description. -/
def appendWrite {T : Type} (buf : Nat → T) (base : Nat) (str : List T) : Nat → T :=
  fun j => if base ≤ j then str.getD (j - base) (buf j) else buf j

/-- The contract of the virtual `CanonOutputT::Resize` (url_canon.h lines
57-62): for a new size larger than the capacity it must install a buffer of
that size, keep the data up to `cur_len_`, and leave `cur_len_` alone. -/
def ResizeSpec {T : Type} (resize : CanonOutputT T → Nat → CanonOutputT T) : Prop :=
  ∀ st sz, st.cur_len ≤ st.buffer_len → st.buffer_len < sz →
    (resize st sz).buffer_len = sz ∧ (resize st sz).cur_len = st.cur_len ∧
    ∀ i, i < st.cur_len → (resize st sz).buffer i = st.buffer i

/-- `CanonOutputT::Grow` (url_canon.h lines 145-154): run the doubling
loop; on success call `Resize` with the computed size and report `true`,
on out-of-memory report `false` without touching the buffer. -/
def Grow {T : Type} (resize : CanonOutputT T → Nat → CanonOutputT T)
    (st : CanonOutputT T) (min_additional fuel : Nat) :
    Option (Bool × CanonOutputT T) :=
  match growLoop st.buffer_len min_additional fuel st.buffer_len with
  | none => none
  | some GrowResult.oom => some (false, st)
  | some (GrowResult.ok n) => some (true, resize st n)

/-- `CanonOutputT::push_back` (url_canon.h lines 112-129): fast path when
the character fits, otherwise `Grow(1)` and insert only on success. -/
def push_back {T : Type} (resize : CanonOutputT T → Nat → CanonOutputT T)
    (st : CanonOutputT T) (ch : T) (fuel : Nat) : Option (CanonOutputT T) :=
  if st.cur_len < st.buffer_len then
    some { st with buffer := writeAt st.buffer st.cur_len ch, cur_len := st.cur_len + 1 }
  else
    match Grow resize st 1 fuel with
    | none => none
    | some (false, st') => some st'
    | some (true, st') =>
      some { st' with buffer := writeAt st'.buffer st'.cur_len ch,
                      cur_len := st'.cur_len + 1 }

/-- `CanonOutputT::Append` (url_canon.h lines 131-140): grow when
`cur_len_ + str_len > buffer_len_` (returning unchanged on failed growth),
then copy the string and advance the length. -/
def Append {T : Type} (resize : CanonOutputT T → Nat → CanonOutputT T)
    (st : CanonOutputT T) (str : List T) (fuel : Nat) : Option (CanonOutputT T) :=
  if st.buffer_len < st.cur_len + str.length then
    match Grow resize st (st.cur_len + str.length - st.buffer_len) fuel with
    | none => none
    | some (false, st') => some st'
    | some (true, st') =>
      some { st' with buffer := appendWrite st'.buffer st'.cur_len str,
                      cur_len := st'.cur_len + str.length }
  else
    some { st with buffer := appendWrite st.buffer st.cur_len str,
                   cur_len := st.cur_len + str.length }

/-- `CanonOutputT::set_length` (url_canon.h lines 106-108): assigns
`cur_len_` and touches nothing else. -/
def set_length {T : Type} (st : CanonOutputT T) (new_len : Nat) : CanonOutputT T :=
  { st with cur_len := new_len }

/-- `RawCanonOutputT::Resize` (url_canon.h lines 178-186): allocate a fresh
buffer of size `sz` (fresh cells hold unspecified values, abstracted by
`junk`), `memcpy` the first `min cur_len_ sz` elements, set
`buffer_len_ = sz`. -/
def RawResize {T : Type} (junk : Nat → T) (st : CanonOutputT T) (sz : Nat) :
    CanonOutputT T :=
  { buffer := fun j => if j < min st.cur_len sz then st.buffer j else junk j,
    buffer_len := sz,
    cur_len := st.cur_len }

theorem rawResize_spec {T : Type} (junk : Nat → T) : ResizeSpec (RawResize junk) := by
  intro st sz hinv hsz
  refine ⟨rfl, rfl, ?_⟩
  intro i hi
  simp only [RawResize]
  rw [if_pos (by omega)]

/-- Soundness of the doubling loop: starting from a state that is either
the initial capacity or still below the target, any returned result
satisfies: out-of-memory only once the target `cap + minadd` is at least
`2^30`, and a success is a doubled capacity accommodating the request. -/
theorem growLoop_sound (cap minadd : Nat) :
    ∀ fuel v r, growLoop cap minadd fuel v = some r →
      (v = cap ∨ v < cap + minadd) → (∃ k, v = cap * 2 ^ k) →
      (r = GrowResult.oom → 2 ^ 30 ≤ cap + minadd) ∧
      (∀ n, r = GrowResult.ok n → cap + minadd ≤ n ∧ ∃ k, n = cap * 2 ^ k) := by
  intro fuel
  induction fuel with
  | zero => intro v r h; simp [growLoop] at h
  | succ fuel ih =>
    intro v r h hlow hpow
    rw [growLoop] at h
    by_cases hcap : 2 ^ 30 ≤ v
    · rw [if_pos hcap] at h
      cases h
      constructor
      · intro _
        rcases hlow with hl | hl
        · omega
        · omega
      · intro n hn; cases hn
    · rw [if_neg hcap] at h
      by_cases hloop : v * 2 < cap + minadd
      · rw [if_pos hloop] at h
        refine ih (v * 2) r h (Or.inr hloop) ?_
        rcases hpow with ⟨k, hk⟩
        exact ⟨k + 1, by rw [hk, pow_succ]; ring⟩
      · rw [if_neg hloop] at h
        cases h
        constructor
        · intro hr; cases hr
        · intro n hn
          cases hn
          refine ⟨by omega, ?_⟩
          rcases hpow with ⟨k, hk⟩
          exact ⟨k + 1, by rw [hk, pow_succ]; ring⟩

/-- Totality of the doubling loop when the state is positive: with enough
fuel to double up to the `2^30` cap, the loop returns. -/
theorem growLoop_total (cap minadd : Nat) :
    ∀ fuel v, 1 ≤ v → 2 ^ 30 ≤ v * 2 ^ fuel →
      ∃ r, growLoop cap minadd (fuel + 1) v = some r := by
  intro fuel
  induction fuel with
  | zero =>
    intro v _ hbig
    refine ⟨GrowResult.oom, ?_⟩
    rw [growLoop, if_pos (by simpa using hbig)]
  | succ fuel ih =>
    intro v hv hbig
    by_cases hcap : 2 ^ 30 ≤ v
    · exact ⟨GrowResult.oom, by rw [growLoop, if_pos hcap]⟩
    · by_cases hloop : v * 2 < cap + minadd
      · have hbig' : 2 ^ 30 ≤ v * 2 * 2 ^ fuel := by
          rw [show v * 2 * 2 ^ fuel = v * (2 ^ fuel * 2) by ring]
          rw [pow_succ] at hbig
          exact hbig
        rcases ih (v * 2) (by omega) hbig' with ⟨r, hr⟩
        exact ⟨r, by rw [growLoop, if_neg hcap, if_pos hloop]; exact hr⟩
      · exact ⟨GrowResult.ok (v * 2), by rw [growLoop, if_neg hcap, if_neg hloop]⟩

/-- Fuel 32 always suffices for a positive starting capacity. -/
theorem growLoop_total32 (cap minadd : Nat) (hcap : 1 ≤ cap) :
    ∃ r, growLoop cap minadd 32 cap = some r := by
  have h : 2 ^ 30 ≤ cap * 2 ^ 31 := by
    have : 2 ^ 30 ≤ 2 ^ 31 := by norm_num
    calc 2 ^ 30 ≤ 2 ^ 31 := this
    _ ≤ cap * 2 ^ 31 := by nlinarith
  exact growLoop_total cap minadd 31 cap hcap h

/-- The doubling loop diverges from capacity zero: the state stays zero and
never accommodates a positive request nor reaches the cap. -/
theorem growLoop_zero_none (minadd : Nat) (hmin : 1 ≤ minadd) :
    ∀ fuel, growLoop 0 minadd fuel 0 = none := by
  intro fuel
  induction fuel with
  | zero => rfl
  | succ fuel ih =>
    rw [growLoop, if_neg (by norm_num), if_pos (by omega)]
    simpa using ih

/-- Case analysis for a returned `Grow`: on failure the state is untouched;
on success (for a `Resize` meeting its contract, a buffer respecting the
length invariant, and a positive request) the capacity now accommodates the
request while length and data are preserved. -/
theorem Grow_cases {T : Type} (resize : CanonOutputT T → Nat → CanonOutputT T)
    (st : CanonOutputT T) (minadd fuel : Nat)
    (hres : ResizeSpec resize) (hinv : st.cur_len ≤ st.buffer_len) (hmin : 1 ≤ minadd) :
    ∀ b st', Grow resize st minadd fuel = some (b, st') →
      (b = false ∧ st' = st) ∨
      (b = true ∧ st'.cur_len = st.cur_len ∧ st.buffer_len + minadd ≤ st'.buffer_len ∧
        ∀ i, i < st.cur_len → st'.buffer i = st.buffer i) := by
  intro b st' h
  unfold Grow at h
  cases hg : growLoop st.buffer_len minadd fuel st.buffer_len with
  | none => rw [hg] at h; cases h
  | some r =>
    rw [hg] at h
    cases r with
    | oom =>
      simp only [Option.some.injEq, Prod.mk.injEq] at h
      exact Or.inl ⟨h.1.symm, h.2.symm⟩
    | ok n =>
      simp only [Option.some.injEq, Prod.mk.injEq] at h
      have hs := growLoop_sound st.buffer_len minadd fuel st.buffer_len
        (GrowResult.ok n) hg (Or.inl rfl) ⟨0, by simp⟩
      have hn : st.buffer_len + minadd ≤ n := (hs.2 n rfl).1
      have hlt : st.buffer_len < n := by omega
      rcases hres st n hinv hlt with ⟨h1, h2, h3⟩
      refine Or.inr ⟨h.1.symm, ?_, ?_, ?_⟩
      · rw [← h.2]; exact h2
      · rw [← h.2, h1]; exact hn
      · rw [← h.2]; exact h3

/-- Claim C1 (amended to positive capacity): for every buffer state whose
capacity is at least one and every requested additional amount of at least
one character, `Grow` — and hence `push_back` and `Append` — completes
within 32 iterations of the doubling loop, returning either success or the
out-of-memory failure. -/
theorem grow_push_append_terminate {T : Type}
    (resize : CanonOutputT T → Nat → CanonOutputT T)
    (st : CanonOutputT T) (minadd : Nat) (ch : T) (str : List T)
    (hcap : 1 ≤ st.buffer_len) (hmin : 1 ≤ minadd) :
    (∃ r, Grow resize st minadd 32 = some r) ∧
    (∃ st', push_back resize st ch 32 = some st') ∧
    (∃ st', Append resize st str 32 = some st') := by
  have hG : ∀ m, ∃ r, Grow resize st m 32 = some r := by
    intro m
    rcases growLoop_total32 st.buffer_len m hcap with ⟨r, hr⟩
    cases r with
    | oom => exact ⟨(false, st), by unfold Grow; rw [hr]⟩
    | ok n => exact ⟨(true, resize st n), by unfold Grow; rw [hr]⟩
  refine ⟨hG minadd, ?_, ?_⟩
  · by_cases hfast : st.cur_len < st.buffer_len
    · exact ⟨_, by unfold push_back; rw [if_pos hfast]⟩
    · rcases hG 1 with ⟨⟨b, st1⟩, hr⟩
      cases b
      · exact ⟨st1, by unfold push_back; rw [if_neg hfast, hr]⟩
      · exact ⟨_, by unfold push_back; rw [if_neg hfast, hr]⟩
  · by_cases hbr : st.buffer_len < st.cur_len + str.length
    · rcases hG (st.cur_len + str.length - st.buffer_len) with ⟨⟨b, st1⟩, hr⟩
      cases b
      · exact ⟨st1, by unfold Append; rw [if_pos hbr, hr]⟩
      · exact ⟨_, by unfold Append; rw [if_pos hbr, hr]⟩
    · exact ⟨_, by unfold Append; rw [if_neg hbr]⟩

/-- Witness for C1 at a concrete buffer of capacity 1. -/
theorem grow_push_append_terminate_witness :
    (∃ r, Grow (RawResize (fun _ => (0 : Nat))) ⟨fun _ => 0, 1, 0⟩ 1 32 = some r) ∧
    (∃ st', push_back (RawResize (fun _ => (0 : Nat))) ⟨fun _ => 0, 1, 0⟩ 0 32 = some st') ∧
    (∃ st', Append (RawResize (fun _ => (0 : Nat))) ⟨fun _ => 0, 1, 0⟩ [0] 32 = some st') :=
  grow_push_append_terminate (RawResize (fun _ => (0 : Nat))) ⟨fun _ => 0, 1, 0⟩ 1 0 [0]
    (Nat.le_refl 1) (Nat.le_refl 1)

/-- Counterexample to C1 as stated: at capacity zero with a request of one
character the doubling loop of `Grow` never returns, with any amount of
fuel, so the operation does not terminate. -/
theorem grow_zero_capacity_diverges : ¬ growTerminates 0 1 := by
  rintro ⟨fuel, r, hr⟩
  rw [growLoop_zero_none 1 (Nat.le_refl 1) fuel] at hr
  cases hr

/-- Claim C2 (amended to positive capacity): from any capacity of at least
one, the growth loop returns; a success is a capacity obtained by repeated
doubling that accommodates the request, failure happens only when the
target `cap + minadd` has reached the absolute cap `2^30`, and strictly
below that cap the loop always succeeds. -/
theorem grow_doubles_and_caps (cap minadd : Nat) (hcap : 1 ≤ cap) :
    ∃ r, growLoop cap minadd 32 cap = some r ∧
      (∀ n, r = GrowResult.ok n → cap + minadd ≤ n ∧ ∃ k, n = cap * 2 ^ k) ∧
      (r = GrowResult.oom → 2 ^ 30 ≤ cap + minadd) ∧
      (cap + minadd < 2 ^ 30 → ∃ n, r = GrowResult.ok n) := by
  rcases growLoop_total32 cap minadd hcap with ⟨r, hr⟩
  have hs := growLoop_sound cap minadd 32 cap r hr (Or.inl rfl) ⟨0, by simp⟩
  refine ⟨r, hr, hs.2, hs.1, ?_⟩
  intro hlt
  cases r with
  | oom => exact absurd (hs.1 rfl) (by omega)
  | ok n => exact ⟨n, rfl⟩

/-- Witness for C2 at capacity 1 and request 1. -/
theorem grow_doubles_and_caps_witness :
    ∃ r, growLoop 1 1 32 1 = some r ∧
      (∀ n, r = GrowResult.ok n → 1 + 1 ≤ n ∧ ∃ k, n = 1 * 2 ^ k) ∧
      (r = GrowResult.oom → 2 ^ 30 ≤ 1 + 1) ∧
      (1 + 1 < 2 ^ 30 → ∃ n, r = GrowResult.ok n) :=
  grow_doubles_and_caps 1 1 (Nat.le_refl 1)

/-- Counterexample to C2 as stated: capacity zero with request one is
strictly below the `2^30` cap, yet the growth loop never succeeds. -/
theorem grow_zero_capacity_below_cap_fails :
    0 + 1 < 2 ^ 30 ∧ ¬ ∃ fuel n, growLoop 0 1 fuel 0 = some (GrowResult.ok n) := by
  refine ⟨by norm_num, ?_⟩
  rintro ⟨fuel, n, h⟩
  rw [growLoop_zero_none 1 (Nat.le_refl 1) fuel] at h
  cases h

/-- Claim C3: under the precondition `new_len ≤ cur_len`, `set_length` sets
the declared length to the new value and leaves every stored character at
offsets `[0, new_len)` unchanged. -/
theorem set_length_truncates {T : Type} (st : CanonOutputT T) (new_len : Nat)
    (h : new_len ≤ st.cur_len) :
    (set_length st new_len).cur_len = new_len ∧
    ∀ i, i < new_len → (set_length st new_len).buffer i = st.buffer i :=
  ⟨rfl, fun _ _ => rfl⟩

/-- Witness for C3 at a concrete buffer of length 3 truncated to 2. -/
theorem set_length_truncates_witness :
    (set_length (⟨fun _ => 9, 4, 3⟩ : CanonOutputT Nat) 2).cur_len = 2 ∧
    ∀ i, i < 2 →
      (set_length (⟨fun _ => 9, 4, 3⟩ : CanonOutputT Nat) 2).buffer i =
        (⟨fun _ => 9, 4, 3⟩ : CanonOutputT Nat).buffer i :=
  set_length_truncates ⟨fun _ => 9, 4, 3⟩ 2 (by decide)

/-- Claim C10: for a new size greater than the capacity (and a state
respecting the length invariant), `RawCanonOutputT::Resize` installs a
buffer of capacity `sz`, keeps the length, and preserves the first
`length()` characters. -/
theorem rawResize_preserves {T : Type} (junk : Nat → T) (st : CanonOutputT T) (sz : Nat)
    (hinv : st.cur_len ≤ st.buffer_len) (hsz : st.buffer_len < sz) :
    (RawResize junk st sz).buffer_len = sz ∧
    (RawResize junk st sz).cur_len = st.cur_len ∧
    ∀ i, i < st.cur_len → (RawResize junk st sz).buffer i = st.buffer i :=
  rawResize_spec junk st sz hinv hsz

/-- Witness for C10 at a concrete two-slot buffer resized to four slots. -/
theorem rawResize_preserves_witness :
    (RawResize (fun _ => 7) (⟨fun _ => 5, 2, 1⟩ : CanonOutputT Nat) 4).buffer_len = 4 ∧
    (RawResize (fun _ => 7) (⟨fun _ => 5, 2, 1⟩ : CanonOutputT Nat) 4).cur_len =
      (⟨fun _ => 5, 2, 1⟩ : CanonOutputT Nat).cur_len ∧
    ∀ i, i < (⟨fun _ => 5, 2, 1⟩ : CanonOutputT Nat).cur_len →
      (RawResize (fun _ => 7) (⟨fun _ => 5, 2, 1⟩ : CanonOutputT Nat) 4).buffer i =
        (⟨fun _ => 5, 2, 1⟩ : CanonOutputT Nat).buffer i :=
  rawResize_preserves (fun _ => 7) ⟨fun _ => 5, 2, 1⟩ 4 (by decide) (by decide)

/-- Claim C9: when the growth loop reports out-of-memory, `push_back` and
`Append` return with the buffer state — its length and all previously
written characters — entirely unchanged; the append is dropped whole. -/
theorem failed_grow_drops_append {T : Type}
    (resize : CanonOutputT T → Nat → CanonOutputT T)
    (st : CanonOutputT T) (ch : T) (str : List T) (fuel : Nat) :
    (¬ st.cur_len < st.buffer_len →
      growLoop st.buffer_len 1 fuel st.buffer_len = some GrowResult.oom →
      push_back resize st ch fuel = some st) ∧
    (st.buffer_len < st.cur_len + str.length →
      growLoop st.buffer_len (st.cur_len + str.length - st.buffer_len) fuel st.buffer_len
        = some GrowResult.oom →
      Append resize st str fuel = some st) := by
  constructor
  · intro hfast hoom
    unfold push_back Grow
    rw [if_neg hfast, hoom]
  · intro hbr hoom
    unfold Append Grow
    rw [if_pos hbr, hoom]

/-- Witness for C9 at a full buffer of capacity `2^30`, where growing must
fail immediately. -/
theorem failed_grow_drops_append_witness :
    push_back (RawResize (fun _ => (0 : Nat))) ⟨fun _ => 0, 2 ^ 30, 2 ^ 30⟩ 0 1
      = some ⟨fun _ => 0, 2 ^ 30, 2 ^ 30⟩ ∧
    Append (RawResize (fun _ => (0 : Nat))) ⟨fun _ => 0, 2 ^ 30, 2 ^ 30⟩ [0] 1
      = some ⟨fun _ => 0, 2 ^ 30, 2 ^ 30⟩ :=
  ⟨(failed_grow_drops_append (RawResize (fun _ => (0 : Nat)))
      ⟨fun _ => 0, 2 ^ 30, 2 ^ 30⟩ 0 [0] 1).1 (by decide) (by decide),
   (failed_grow_drops_append (RawResize (fun _ => (0 : Nat)))
      ⟨fun _ => 0, 2 ^ 30, 2 ^ 30⟩ 0 [0] 1).2 (by decide) (by decide)⟩

/-- Claim C8: the invariant `0 ≤ length ≤ capacity` (lengths are naturals
here, so the lower bound is inherent) is preserved by `push_back`,
`Append`, `Grow` (for any `Resize` meeting its contract and any positive
request, as issued by the class), and by `set_length` under its
precondition. -/
theorem buffer_invariant_preserved {T : Type}
    (resize : CanonOutputT T → Nat → CanonOutputT T)
    (st : CanonOutputT T) (ch : T) (str : List T) (minadd new_len fuel : Nat)
    (hres : ResizeSpec resize) (hinv : st.cur_len ≤ st.buffer_len) :
    (∀ st', push_back resize st ch fuel = some st' → st'.cur_len ≤ st'.buffer_len) ∧
    (∀ st', Append resize st str fuel = some st' → st'.cur_len ≤ st'.buffer_len) ∧
    (1 ≤ minadd → ∀ b st', Grow resize st minadd fuel = some (b, st') →
      st'.cur_len ≤ st'.buffer_len) ∧
    (new_len ≤ st.cur_len →
      (set_length st new_len).cur_len ≤ (set_length st new_len).buffer_len) := by
  refine ⟨?_, ?_, ?_, ?_⟩
  · intro st' h
    unfold push_back at h
    by_cases hfast : st.cur_len < st.buffer_len
    · rw [if_pos hfast] at h
      simp only [Option.some.injEq] at h
      rw [← h]
      simpa using hfast
    · rw [if_neg hfast] at h
      cases hg : Grow resize st 1 fuel with
      | none => rw [hg] at h; cases h
      | some p =>
        obtain ⟨b, st1⟩ := p
        rw [hg] at h
        rcases Grow_cases resize st 1 fuel hres hinv (Nat.le_refl 1) b st1 hg with
          hcase | hcase
        · rw [hcase.1] at h
          simp only [Option.some.injEq] at h
          rw [← h, hcase.2]
          exact hinv
        · rw [hcase.1] at h
          simp only [Option.some.injEq] at h
          rw [← h]
          have h1 := hcase.2.1
          have h2 := hcase.2.2.1
          simp only
          omega
  · intro st' h
    unfold Append at h
    by_cases hbr : st.buffer_len < st.cur_len + str.length
    · rw [if_pos hbr] at h
      have hm : 1 ≤ st.cur_len + str.length - st.buffer_len := by omega
      cases hg : Grow resize st (st.cur_len + str.length - st.buffer_len) fuel with
      | none => rw [hg] at h; cases h
      | some p =>
        obtain ⟨b, st1⟩ := p
        rw [hg] at h
        rcases Grow_cases resize st (st.cur_len + str.length - st.buffer_len) fuel
            hres hinv hm b st1 hg with hcase | hcase
        · rw [hcase.1] at h
          simp only [Option.some.injEq] at h
          rw [← h, hcase.2]
          exact hinv
        · rw [hcase.1] at h
          simp only [Option.some.injEq] at h
          rw [← h]
          have h1 := hcase.2.1
          have h2 := hcase.2.2.1
          simp only
          omega
    · rw [if_neg hbr] at h
      simp only [Option.some.injEq] at h
      rw [← h]
      simp only
      omega
  · intro hm b st' h
    rcases Grow_cases resize st minadd fuel hres hinv hm b st' h with hcase | hcase
    · rw [hcase.2]; exact hinv
    · have h1 := hcase.2.1
      have h2 := hcase.2.2.1
      omega
  · intro hle
    simp only [set_length]
    omega

/-- Witness for C8 at a concrete buffer with the concrete `Resize` of
`RawCanonOutputT`. -/
theorem buffer_invariant_preserved_witness :
    (∀ st', push_back (RawResize (fun _ => (0 : Nat))) ⟨fun _ => 0, 2, 1⟩ 5 32 = some st' →
      st'.cur_len ≤ st'.buffer_len) ∧
    (∀ st', Append (RawResize (fun _ => (0 : Nat))) ⟨fun _ => 0, 2, 1⟩ [6, 6] 32 = some st' →
      st'.cur_len ≤ st'.buffer_len) ∧
    (1 ≤ 1 → ∀ b st', Grow (RawResize (fun _ => (0 : Nat))) ⟨fun _ => 0, 2, 1⟩ 1 32
        = some (b, st') → st'.cur_len ≤ st'.buffer_len) ∧
    (0 ≤ (⟨fun _ => 0, 2, 1⟩ : CanonOutputT Nat).cur_len →
      (set_length (⟨fun _ => 0, 2, 1⟩ : CanonOutputT Nat) 0).cur_len ≤
        (set_length (⟨fun _ => 0, 2, 1⟩ : CanonOutputT Nat) 0).buffer_len) :=
  buffer_invariant_preserved (RawResize (fun _ => (0 : Nat))) ⟨fun _ => 0, 2, 1⟩ 5 [6, 6] 1 0 32
    (rawResize_spec (fun _ => (0 : Nat))) (by decide)

/-- A UTF-8 continuation byte. -/
def isCont (b : Nat) : Bool := decide (0x80 ≤ b ∧ b ≤ 0xBF)

/-- Admissible first continuation byte after a three-byte lead, ruling out
overlong encodings (lead `0xE0`) and surrogates (lead `0xED`). -/
def cont3 (b b1 : Nat) : Bool :=
  if b = 0xE0 then decide (0xA0 ≤ b1 ∧ b1 ≤ 0xBF)
  else if b = 0xED then decide (0x80 ≤ b1 ∧ b1 ≤ 0x9F)
  else isCont b1

/-- Admissible first continuation byte after a four-byte lead, ruling out
overlong encodings (lead `0xF0`) and values beyond `U+10FFFF` (lead
`0xF4`). -/
def cont4 (b b1 : Nat) : Bool :=
  if b = 0xF0 then decide (0x90 ≤ b1 ∧ b1 ≤ 0xBF)
  else if b = 0xF4 then decide (0x80 ≤ b1 ∧ b1 ≤ 0x8F)
  else isCont b1

/-- One step of the standard UTF-8 validator: given the byte `b` at the
current position and the bytes after it, return `some k` when `b` starts a
well-formed `k`-byte sequence (no overlong forms, no surrogates, no code
points beyond `U+10FFFF`), `none` otherwise. -/
def validStep (b : Nat) (rest : List Nat) : Option Nat :=
  if b ≤ 0x7F then some 1
  else if 0xC2 ≤ b ∧ b ≤ 0xDF then
    match rest with
    | b1 :: _ => if isCont b1 = true then some 2 else none
    | [] => none
  else if 0xE0 ≤ b ∧ b ≤ 0xEF then
    match rest with
    | b1 :: b2 :: _ => if cont3 b b1 = true ∧ isCont b2 = true then some 3 else none
    | _ => none
  else if 0xF0 ≤ b ∧ b ≤ 0xF4 then
    match rest with
    | b1 :: b2 :: b3 :: _ =>
      if cont4 b b1 = true ∧ isCont b2 = true ∧ isCont b3 = true then some 4 else none
    | _ => none
  else none

/-- Standard UTF-8 validator over a byte sequence: every position starts a
well-formed one- to four-byte sequence. -/
def validUtf8 : List Nat → Bool
  | [] => true
  | b :: rest =>
    match validStep b rest with
    | some k => validUtf8 (rest.drop (k - 1))
    | none => false
termination_by l => l.length
decreasing_by simp [List.length_drop]; omega

/-- A Unicode scalar value: any code point up to `U+10FFFF` that is not a
surrogate. -/
def isScalar (c : Nat) : Bool := decide (c < 0xD800 ∨ (0xDFFF < c ∧ c ≤ 0x10FFFF))

/-- Modelled from the spec: the decoding-with-repair step shared by the
query and fragment canonicalizers (whose implementations are declared but
not present under src/).  Reads UTF-8 sequences from the input; any
malformed position (bad lead byte, bad or missing continuation bytes,
overlong form, surrogate, out-of-range value) yields the Unicode
replacement character `U+FFFD` and decoding resumes after the offending
lead byte; valid sequences yield their code point. -/
def decodeOne (b : Nat) (rest : List Nat) : Nat × Nat :=
  if b ≤ 0x7F then (b, 1)
  else if 0xC2 ≤ b ∧ b ≤ 0xDF then
    match rest with
    | b1 :: _ =>
      if isCont b1 = true then (0x40 * (b - 0xC0) + (b1 - 0x80), 2)
      else (0xFFFD, 1)
    | [] => (0xFFFD, 1)
  else if 0xE0 ≤ b ∧ b ≤ 0xEF then
    match rest with
    | b1 :: b2 :: _ =>
      if cont3 b b1 = true ∧ isCont b2 = true then
        (0x1000 * (b - 0xE0) + 0x40 * (b1 - 0x80) + (b2 - 0x80), 3)
      else (0xFFFD, 1)
    | _ => (0xFFFD, 1)
  else if 0xF0 ≤ b ∧ b ≤ 0xF4 then
    match rest with
    | b1 :: b2 :: b3 :: _ =>
      if cont4 b b1 = true ∧ isCont b2 = true ∧ isCont b3 = true then
        (0x40000 * (b - 0xF0) + 0x1000 * (b1 - 0x80) + 0x40 * (b2 - 0x80) + (b3 - 0x80), 4)
      else (0xFFFD, 1)
    | _ => (0xFFFD, 1)
  else (0xFFFD, 1)

/-- The repairing decoder: at each position, decode one sequence via
`decodeOne` (code point and number of bytes consumed) and continue after
the consumed bytes. -/
def utf8Decode : List Nat → List Nat
  | [] => []
  | b :: rest =>
    (decodeOne b rest).1 :: utf8Decode (rest.drop ((decodeOne b rest).2 - 1))
termination_by l => l.length
decreasing_by simp [List.length_drop]; omega

/-- The UTF-8 encoding of one scalar value. -/
def utf8EncodeChar (c : Nat) : List Nat :=
  if c ≤ 0x7F then [c]
  else if c ≤ 0x7FF then [0xC0 + c / 0x40, 0x80 + c % 0x40]
  else if c ≤ 0xFFFF then
    [0xE0 + c / 0x1000, 0x80 + c / 0x40 % 0x40, 0x80 + c % 0x40]
  else
    [0xF0 + c / 0x40000, 0x80 + c / 0x1000 % 0x40, 0x80 + c / 0x40 % 0x40, 0x80 + c % 0x40]

/-- The UTF-8 encoding of a sequence of scalar values. -/
def utf8Encode : List Nat → List Nat
  | [] => []
  | c :: cs => utf8EncodeChar c ++ utf8Encode cs

theorem isCont_bounds {b : Nat} (h : isCont b = true) : 0x80 ≤ b ∧ b ≤ 0xBF := by
  rw [isCont, decide_eq_true_eq] at h
  exact h

theorem cont3_cases {b b1 : Nat} (h : cont3 b b1 = true) :
    (b = 0xE0 ∧ 0xA0 ≤ b1 ∧ b1 ≤ 0xBF) ∨ (b = 0xED ∧ 0x80 ≤ b1 ∧ b1 ≤ 0x9F) ∨
    (b ≠ 0xE0 ∧ b ≠ 0xED ∧ 0x80 ≤ b1 ∧ b1 ≤ 0xBF) := by
  rw [cont3] at h
  by_cases he : b = 0xE0
  · rw [if_pos he, decide_eq_true_eq] at h
    exact Or.inl ⟨he, h⟩
  · rw [if_neg he] at h
    by_cases hd : b = 0xED
    · rw [if_pos hd, decide_eq_true_eq] at h
      exact Or.inr (Or.inl ⟨hd, h⟩)
    · rw [if_neg hd] at h
      exact Or.inr (Or.inr ⟨he, hd, isCont_bounds h⟩)

theorem cont4_cases {b b1 : Nat} (h : cont4 b b1 = true) :
    (b = 0xF0 ∧ 0x90 ≤ b1 ∧ b1 ≤ 0xBF) ∨ (b = 0xF4 ∧ 0x80 ≤ b1 ∧ b1 ≤ 0x8F) ∨
    (b ≠ 0xF0 ∧ b ≠ 0xF4 ∧ 0x80 ≤ b1 ∧ b1 ≤ 0xBF) := by
  rw [cont4] at h
  by_cases he : b = 0xF0
  · rw [if_pos he, decide_eq_true_eq] at h
    exact Or.inl ⟨he, h⟩
  · rw [if_neg he] at h
    by_cases hd : b = 0xF4
    · rw [if_pos hd, decide_eq_true_eq] at h
      exact Or.inr (Or.inl ⟨hd, h⟩)
    · rw [if_neg hd] at h
      exact Or.inr (Or.inr ⟨he, hd, isCont_bounds h⟩)


/-- The code point delivered by one decoding step is always a Unicode
scalar value. -/
theorem decodeOne_scalar (b : Nat) (rest : List Nat) :
    isScalar (decodeOne b rest).1 = true := by
  rcases rest with _ | ⟨b1, _ | ⟨b2, _ | ⟨b3, r⟩⟩⟩
  · simp only [decodeOne]
    split_ifs with h1 h2 h3 h4 <;> simp only [isScalar, decide_eq_true_eq] <;> omega
  · simp only [decodeOne]
    split_ifs with h1 h2 h3 h4 h5 <;> simp only [isScalar, decide_eq_true_eq]
    all_goals try omega
    have := isCont_bounds h3
    omega
  · simp only [decodeOne]
    split_ifs with h1 h2 h3 h4 h5 h6 <;> simp only [isScalar, decide_eq_true_eq]
    all_goals try omega
    · have := isCont_bounds h3
      omega
    · have hb2 := isCont_bounds h5.2
      rcases cont3_cases h5.1 with ⟨he, hr⟩ | ⟨he, hr⟩ | ⟨he1, he2, hr⟩ <;> omega
  · simp only [decodeOne]
    split_ifs with h1 h2 h3 h4 h5 h6 h7 <;> simp only [isScalar, decide_eq_true_eq]
    all_goals try omega
    · have := isCont_bounds h3
      omega
    · have hb2 := isCont_bounds h5.2
      rcases cont3_cases h5.1 with ⟨he, hr⟩ | ⟨he, hr⟩ | ⟨he1, he2, hr⟩ <;> omega
    · have hb2 := isCont_bounds h7.2.1
      have hb3 := isCont_bounds h7.2.2
      rcases cont4_cases h7.1 with ⟨he, hr⟩ | ⟨he, hr⟩ | ⟨he1, he2, hr⟩ <;> omega

/-- Every code point produced by the repairing decoder is a Unicode scalar
value: valid sequences decode to their in-range, non-surrogate value and
malformed positions become `U+FFFD`. -/
theorem utf8Decode_scalars (l : List Nat) : ∀ c ∈ utf8Decode l, isScalar c = true := by
  induction l using utf8Decode.induct with
  | case1 => intro c hc; simp [utf8Decode] at hc
  | case2 b rest ih =>
    intro c hc
    simp only [utf8Decode, List.mem_cons] at hc
    rcases hc with rfl | hc
    · exact decodeOne_scalar b rest
    · exact ih c hc

/-- When the validator rejects at a position, the decoder emits the
replacement character there. -/
theorem validStep_none_decodeOne {b : Nat} {rest : List Nat} (h : validStep b rest = none) :
    (decodeOne b rest).1 = 0xFFFD := by
  rcases rest with _ | ⟨b1, _ | ⟨b2, _ | ⟨b3, r⟩⟩⟩ <;>
    (simp only [validStep, decodeOne] at h ⊢ <;> split_ifs at h ⊢ <;> simp_all)

/-- When the validator accepts a `k`-byte sequence, the decoder consumes
exactly those `k` bytes. -/
theorem validStep_some_decodeOne {b : Nat} {rest : List Nat} {k : Nat}
    (h : validStep b rest = some k) : (decodeOne b rest).2 = k := by
  rcases rest with _ | ⟨b1, _ | ⟨b2, _ | ⟨b3, r⟩⟩⟩ <;>
    (simp only [validStep, decodeOne] at h ⊢ <;> split_ifs at h ⊢ <;> simp_all)

theorem validUtf8_cons (b : Nat) (rest : List Nat) :
    validUtf8 (b :: rest) =
      match validStep b rest with
      | some k => validUtf8 (rest.drop (k - 1))
      | none => false := by
  simp only [validUtf8]

/-- An input rejected by the validator decodes to a sequence containing
the replacement character. -/
theorem validUtf8_false_mem (l : List Nat) :
    validUtf8 l = false → 0xFFFD ∈ utf8Decode l := by
  induction l using utf8Decode.induct with
  | case1 =>
    intro h
    exact absurd h (by simp [validUtf8])
  | case2 b rest ih =>
    intro h
    rw [validUtf8_cons] at h
    simp only [utf8Decode]
    cases hv : validStep b rest with
    | none =>
      rw [validStep_none_decodeOne hv]
      exact List.mem_cons_self _ _
    | some k =>
      rw [hv] at h
      have h' : validUtf8 (rest.drop (k - 1)) = false := h
      rw [← validStep_some_decodeOne hv] at h'
      exact List.mem_cons_of_mem _ (ih h')


theorem validStep_one {b : Nat} (rest : List Nat) (h : b ≤ 0x7F) :
    validStep b rest = some 1 := by
  simp only [validStep]
  rw [if_pos h]

theorem validStep_two {b b1 : Nat} (rest : List Nat)
    (h0 : ¬ b ≤ 0x7F) (hb : 0xC2 ≤ b ∧ b ≤ 0xDF) (h1 : isCont b1 = true) :
    validStep b (b1 :: rest) = some 2 := by
  simp only [validStep]
  rw [if_neg h0, if_pos hb, if_pos h1]

theorem validStep_three {b b1 b2 : Nat} (rest : List Nat)
    (h0 : ¬ b ≤ 0x7F) (hb' : ¬ (0xC2 ≤ b ∧ b ≤ 0xDF)) (hb : 0xE0 ≤ b ∧ b ≤ 0xEF)
    (h1 : cont3 b b1 = true) (h2 : isCont b2 = true) :
    validStep b (b1 :: b2 :: rest) = some 3 := by
  simp only [validStep]
  rw [if_neg h0, if_neg hb', if_pos hb, if_pos ⟨h1, h2⟩]

theorem validStep_four {b b1 b2 b3 : Nat} (rest : List Nat)
    (h0 : ¬ b ≤ 0x7F) (hb' : ¬ (0xC2 ≤ b ∧ b ≤ 0xDF)) (hb'' : ¬ (0xE0 ≤ b ∧ b ≤ 0xEF))
    (hb : 0xF0 ≤ b ∧ b ≤ 0xF4)
    (h1 : cont4 b b1 = true) (h2 : isCont b2 = true) (h3 : isCont b3 = true) :
    validStep b (b1 :: b2 :: b3 :: rest) = some 4 := by
  simp only [validStep]
  rw [if_neg h0, if_neg hb', if_neg hb'', if_pos hb, if_pos ⟨h1, h2, h3⟩]

/-- The UTF-8 encoding of a scalar value is accepted by the validator and
is transparent to what follows it. -/
theorem utf8EncodeChar_valid (c : Nat) (rest : List Nat) (hsc : isScalar c = true) :
    validUtf8 (utf8EncodeChar c ++ rest) = validUtf8 rest := by
  rw [isScalar, decide_eq_true_eq] at hsc
  rw [utf8EncodeChar]
  by_cases h1 : c ≤ 0x7F
  · rw [if_pos h1]
    simp only [List.cons_append, List.nil_append]
    rw [validUtf8_cons, validStep_one rest h1]
    rfl
  · rw [if_neg h1]
    by_cases h2 : c ≤ 0x7FF
    · rw [if_pos h2]
      simp only [List.cons_append, List.nil_append]
      have hc1 : isCont (0x80 + c % 0x40) = true := by
        rw [isCont, decide_eq_true_eq]
        omega
      rw [validUtf8_cons, validStep_two rest (by omega) (by omega) hc1]
      rfl
    · rw [if_neg h2]
      by_cases h3 : c ≤ 0xFFFF
      · rw [if_pos h3]
        simp only [List.cons_append, List.nil_append]
        have hc2 : isCont (0x80 + c % 0x40) = true := by
          rw [isCont, decide_eq_true_eq]
          omega
        have hc3 : cont3 (0xE0 + c / 0x1000) (0x80 + c / 0x40 % 0x40) = true := by
          rw [cont3]
          by_cases he : 0xE0 + c / 0x1000 = 0xE0
          · rw [if_pos he, decide_eq_true_eq]
            omega
          · rw [if_neg he]
            by_cases hd : 0xE0 + c / 0x1000 = 0xED
            · rw [if_pos hd, decide_eq_true_eq]
              omega
            · rw [if_neg hd, isCont, decide_eq_true_eq]
              omega
        rw [validUtf8_cons, validStep_three rest (by omega) (by omega) (by omega) hc3 hc2]
        rfl
      · rw [if_neg h3]
        simp only [List.cons_append, List.nil_append]
        have hc2 : isCont (0x80 + c / 0x40 % 0x40) = true := by
          rw [isCont, decide_eq_true_eq]
          omega
        have hc2' : isCont (0x80 + c % 0x40) = true := by
          rw [isCont, decide_eq_true_eq]
          omega
        have hc4 : cont4 (0xF0 + c / 0x40000) (0x80 + c / 0x1000 % 0x40) = true := by
          rw [cont4]
          by_cases he : 0xF0 + c / 0x40000 = 0xF0
          · rw [if_pos he, decide_eq_true_eq]
            omega
          · rw [if_neg he]
            by_cases hd : 0xF0 + c / 0x40000 = 0xF4
            · rw [if_pos hd, decide_eq_true_eq]
              omega
            · rw [if_neg hd, isCont, decide_eq_true_eq]
              omega
        rw [validUtf8_cons,
          validStep_four rest (by omega) (by omega) (by omega) (by omega) hc4 hc2 hc2']
        rfl

/-- The UTF-8 encoding of any sequence of scalar values passes the
validator. -/
theorem utf8Encode_valid (l : List Nat) (h : ∀ c ∈ l, isScalar c = true) :
    validUtf8 (utf8Encode l) = true := by
  induction l with
  | nil => simp only [utf8Encode, validUtf8]
  | cons c cs ih =>
    rw [utf8Encode]
    rw [utf8EncodeChar_valid c (utf8Encode cs) (h c (List.mem_cons_self c cs))]
    exact ih (fun x hx => h x (List.mem_cons_of_mem c hx))

/-- Modelled from the spec: `CanonicalizeRef` (declared at url_canon.h
lines 421-428, implementation not under src/).  The fragment canonicalizer
prepends `#` when the component is present, emits its text as UTF-8
regardless of target charset, and repairs invalid input sequences with the
Unicode replacement character (via `utf8Decode`); an absent component
appends nothing.  The value is the text appended to the output buffer. -/
def CanonicalizeRef (ref : Option (List Nat)) : List Nat :=
  match ref with
  | none => []
  | some bs => 0x23 :: utf8Encode (utf8Decode bs)

/-- Modelled from the spec: `CanonicalizeQuery` (declared at url_canon.h
lines 400-409, implementation not under src/; unlike every other
piece-by-piece canonicalizer its declared return type is `void`, so no
failure result is exposed).  With a null charset converter the output
encoding is UTF-8: the query canonicalizer prepends `?` when the component
is present and re-encodes the text, substituting the Unicode replacement
character for incorrectly encoded parts (via `utf8Decode`); an absent
component appends nothing.  The value is the text appended to the output
buffer; percent-escaping by the query escape set is not modelled, as the
spec does not enumerate that set. -/
def CanonicalizeQuery (query : Option (List Nat)) : List Nat :=
  match query with
  | none => []
  | some bs => 0x3F :: utf8Encode (utf8Decode bs)

/-- Claim C4: for every input to the fragment canonicalizer — including
malformed UTF-8 — the text appended to the output is valid UTF-8, with
invalid sequences replaced by the replacement character and the rest
copied. -/
theorem canonicalizeRef_output_valid_utf8 (ref : Option (List Nat)) :
    validUtf8 (CanonicalizeRef ref) = true := by
  cases ref with
  | none => simp only [CanonicalizeRef, validUtf8]
  | some bs =>
    rw [CanonicalizeRef, validUtf8_cons, validStep_one _ (by norm_num)]
    show validUtf8 (List.drop 0 (utf8Encode (utf8Decode bs))) = true
    rw [List.drop_zero]
    exact utf8Encode_valid (utf8Decode bs) (utf8Decode_scalars bs)

/-- Claim C5: the query canonicalizer never fails — it is a total
function (no failure result in its type, matching the `void` declaration)
whose output is well-formed for every input, and incorrectly encoded
input is repaired by substituting the replacement character rather than
rejected. -/
theorem canonicalizeQuery_total_repairs (bs : List Nat) :
    validUtf8 (CanonicalizeQuery (some bs)) = true ∧
    (validUtf8 bs = false → 0xFFFD ∈ utf8Decode bs) := by
  constructor
  · rw [CanonicalizeQuery, validUtf8_cons, validStep_one _ (by norm_num)]
    show validUtf8 (List.drop 0 (utf8Encode (utf8Decode bs))) = true
    rw [List.drop_zero]
    exact utf8Encode_valid (utf8Decode bs) (utf8Decode_scalars bs)
  · exact validUtf8_false_mem bs

/-- Witness for C5 at the malformed one-byte input `0xFF`. -/
theorem canonicalizeQuery_total_repairs_witness :
    validUtf8 (CanonicalizeQuery (some [0xFF])) = true ∧ 0xFFFD ∈ utf8Decode [0xFF] :=
  ⟨(canonicalizeQuery_total_repairs [0xFF]).1,
   (canonicalizeQuery_total_repairs [0xFF]).2
     (by simp [validUtf8, validStep, isCont, cont3, cont4])⟩

/-- A URL component: an (offset, length) slice of a source string, or the
absent sentinel `offset = -1, length = 0`, which is distinct from a
present-but-empty slice (`offset ≥ 0, length = 0`). -/
structure Component where
  start : Int
  len : Nat
deriving DecidableEq

def Component.absent : Component := ⟨-1, 0⟩

/-- The set of components describing one URL's structure. -/
structure Parsed where
  scheme : Component
  username : Component
  password : Component
  host : Component
  port : Component
  path : Component
  query : Component
  ref : Component
deriving DecidableEq

/-- The text of a component within its source string. -/
def sliceOf (s : List Nat) (c : Component) : List Nat :=
  (s.drop c.start.toNat).take c.len

/-- Split a byte sequence at `/` separators. -/
def splitSlash : List Nat → List (List Nat)
  | [] => [[]]
  | c :: rest =>
    if c = 0x2F then [] :: splitSlash rest
    else
      match splitSlash rest with
      | s :: ss => (c :: s) :: ss
      | [] => [[c]]

/-- Rejoin segments with `/` separators. -/
def joinSlash : List (List Nat) → List Nat
  | [] => []
  | [s] => s
  | s :: ss => s ++ 0x2F :: joinSlash ss

/-- One step of dot-segment resolution over a segment stack: `.` is
dropped, `..` backs out one segment (a no-op above the root), anything
else is pushed. -/
def dotSegApply (stack : List (List Nat)) (seg : List Nat) : List (List Nat) :=
  if seg = [0x2E] then stack
  else if seg = [0x2E, 0x2E] then (if stack.length ≤ 1 then stack else stack.dropLast)
  else stack ++ [seg]

/-- Modelled from the spec: standard dot-segment resolution (the merge
rules referenced by the relative resolver, whose implementation is not
under src/). -/
def removeDotSegments (p : List Nat) : List Nat :=
  joinSlash ((splitSlash p).foldl dotSegApply [])

/-- Length of the prefix of `p` that runs through its last `/` (zero when
`p` has no slash): the base path's directory part. -/
def lastSlashEnd : List Nat → Nat
  | [] => 0
  | c :: rest =>
    let r := lastSlashEnd rest
    if r = 0 then (if c = 0x2F then 1 else 0) else r + 1

/-- Does the text look like a Windows drive spec (letter then `:` or
`|`)? -/
def driveStart (l : List Nat) : Bool :=
  match l with
  | c :: s :: _ =>
    decide (((0x41 ≤ c ∧ c ≤ 0x5A) ∨ (0x61 ≤ c ∧ c ≤ 0x7A)) ∧ (s = 0x3A ∨ s = 0x7C))
  | _ => false

/-- Modelled from the spec: `ResolveRelativeURL` (declared at url_canon.h
lines 609-622, implementation not under src/).  The resolver requires the
base to have a non-empty path and, unless it is a file URL, a host; when
that fails it reports failure and returns the base unchanged.  Otherwise
it dispatches on the first characters of the relative text: `//` keeps
only the scheme, a single `/` replaces the path onward, `?` and `#`
replace from the query or fragment onward, an empty reference returns the
base, a drive-letter-looking reference against a file base replaces the
whole path, and anything else merges with the base path's directory and
applies dot-segment resolution.  The model returns the success flag and
the output buffer text; the output `Parsed` record is not modelled. -/
def ResolveRelativeURL (base_url : List Nat) (base_parsed : Parsed)
    (base_is_file : Bool) (relative_url : List Nat)
    (relative_component : Component) : Bool × List Nat :=
  if base_parsed.path.len = 0 ∨ (base_is_file = false ∧ base_parsed.host.len = 0) then
    (false, base_url)
  else
    match sliceOf relative_url relative_component with
    | [] => (true, base_url)
    | c1 :: rest1 =>
      if c1 = 0x2F then
        match rest1 with
        | c2 :: rest2 =>
          if c2 = 0x2F then
            (true, base_url.take (base_parsed.scheme.start.toNat + base_parsed.scheme.len + 1)
              ++ c1 :: c2 :: rest2)
          else
            (true, base_url.take base_parsed.path.start.toNat ++ c1 :: c2 :: rest2)
        | [] => (true, base_url.take base_parsed.path.start.toNat ++ [c1])
      else if c1 = 0x3F then
        (true, base_url.take (base_parsed.path.start.toNat + base_parsed.path.len)
          ++ c1 :: rest1)
      else if c1 = 0x23 then
        (true,
          base_url.take
            (if 0 ≤ base_parsed.query.start then
              base_parsed.query.start.toNat + base_parsed.query.len
            else base_parsed.path.start.toNat + base_parsed.path.len)
          ++ c1 :: rest1)
      else if base_is_file = true ∧ driveStart (c1 :: rest1) = true then
        (true, base_url.take base_parsed.path.start.toNat ++ 0x2F :: c1 :: rest1)
      else
        let basePath := sliceOf base_url base_parsed.path
        let dir := basePath.take (lastSlashEnd basePath)
        let relPath := (c1 :: rest1).takeWhile (fun c => decide (c ≠ 0x3F ∧ c ≠ 0x23))
        let tail := (c1 :: rest1).drop relPath.length
        (true, base_url.take base_parsed.path.start.toNat
          ++ removeDotSegments (dir ++ relPath) ++ tail)

/-- Claim C6: when the base URL lacks a non-empty path, or (unless it is a
file URL) lacks a host, `ResolveRelativeURL` reports failure and returns
the base URL unchanged as its output. -/
theorem resolve_fails_without_host_or_path (base_url : List Nat) (base_parsed : Parsed)
    (base_is_file : Bool) (relative_url : List Nat) (relative_component : Component)
    (h : base_parsed.path.len = 0 ∨ (base_is_file = false ∧ base_parsed.host.len = 0)) :
    ResolveRelativeURL base_url base_parsed base_is_file relative_url relative_component
      = (false, base_url) := by
  unfold ResolveRelativeURL
  rw [if_pos h]

/-- Witness for C6: resolving `a` against the pathless, hostless base
`foo:` fails and returns the base. -/
theorem resolve_fails_without_host_or_path_witness :
    ResolveRelativeURL [0x66, 0x6F, 0x6F, 0x3A]
      ⟨⟨0, 3⟩, Component.absent, Component.absent, Component.absent, Component.absent,
        Component.absent, Component.absent, Component.absent⟩
      false [0x61] ⟨0, 1⟩
      = (false, [0x66, 0x6F, 0x6F, 0x3A]) :=
  resolve_fails_without_host_or_path _ _ _ _ _ (by decide)

/-- The set of per-component override strings handed to the replacement
machinery: `none` keeps the base's value, `some` replaces it. -/
structure URLComponentSource where
  scheme : Option (List Nat)
  username : Option (List Nat)
  password : Option (List Nat)
  host : Option (List Nat)
  port : Option (List Nat)
  path : Option (List Nat)
  query : Option (List Nat)
  ref : Option (List Nat)

/-- ASCII lower-casing of one character. -/
def lowerAscii (c : Nat) : Nat := if 0x41 ≤ c ∧ c ≤ 0x5A then c + 0x20 else c

/-- Modelled from the spec: the opaque-path assembler
(`CanonicalizePathURL`, declared at url_canon.h lines 466-475,
implementation not under src/): it emits only the canonicalized scheme,
the colon, and the raw, unescaped path; every other component is ignored
entirely. -/
def CanonicalizePathURL (scheme_src path_src : List Nat) : List Nat :=
  scheme_src.map lowerAscii ++ 0x3A :: path_src

/-- Modelled from the spec: `ReplacePathURL` (declared at url_canon.h
lines 558-563, implementation not under src/): for an opaque-path base,
each of scheme and path is taken from the override when supplied and from
the base's slice otherwise, and the opaque-path assembler is re-run;
overrides for all other components are ignored. -/
def ReplacePathURL (base : List Nat) (base_parsed : Parsed)
    (repl : URLComponentSource) : List Nat :=
  CanonicalizePathURL
    (match repl.scheme with
     | some s => s
     | none => sliceOf base base_parsed.scheme)
    (match repl.path with
     | some p => p
     | none => sliceOf base base_parsed.path)

/-- Claim C7: on an opaque-path base, replacement applies only the scheme
and path overrides — adding username, password, host, port, query, or
fragment overrides to any replacement set leaves the output identical. -/
theorem replacePathURL_ignores_other_overrides (base : List Nat) (base_parsed : Parsed)
    (repl : URLComponentSource) (u pw ho po q r : Option (List Nat)) :
    ReplacePathURL base base_parsed
      { repl with username := u, password := pw, host := ho, port := po,
                  query := q, ref := r }
      = ReplacePathURL base base_parsed repl := rfl
